import Mathlib

/-!
Verification development for `GenerateTextures.py`.

The script walks an input tree of textures and, per `.png` file, copies an
(optionally alpha-halved) scratch copy into a flat "PS2" output tree, runs an
external splitter into a scratch output directory, moves the produced `.png`
tiles into a "Wii" output tree, and renames the flat copy when a name mapping
entry exists.  Collisions in either output directory are resolved by
`unique_dest`, which suffixes `_1`, `_2`, ... to the stem of the desired name.

The shallow embedding below models:
  * the Python string and path primitives the script uses
    (`str.lower`, `str.strip`, `str.endswith`, `os.path.splitext`,
    `os.path.join`, `os.path.dirname`, decimal rendering of loop counters);
  * `unique_dest` (the collision-resolving while loop, with explicit fuel);
  * `read_mappings` (the configparser section items are taken as an abstract
    association list, since the key/value parser is an external collaborator);
  * `apply_half_opacity` on images decoded to RGBA pixel lists;
  * `gather_pngs` over a directory tree in `os.walk` enumeration order;
  * the per-file pipeline of `main` over a single mirrored directory:
    flat copy, splitter outcome, tile placement, mapped rename, counters;
  * the scratch-directory lifecycle of `main` as an event trace.
-/

/-! ### Python string primitives -/

/-- `s.lower()` (ASCII case folding, as used on file names). -/
def lowerStr (s : String) : String :=
  ⟨s.data.map Char.toLower⟩

/-- `s.strip()`: remove leading and trailing whitespace. -/
def pyStrip (s : String) : String :=
  ⟨((s.data.dropWhile Char.isWhitespace).reverse.dropWhile Char.isWhitespace).reverse⟩

/-- `fname.lower().endswith(".png")`, the image-suffix test used by `main`
(line 124) and `gather_pngs` (line 83). -/
def endsPng (s : String) : Bool :=
  List.isSuffixOf ".png".data (lowerStr s).data

/-- Index of the last occurrence of a character in a list (`str.rfind`),
`none` when the character does not occur. -/
def lastIdx (c : Char) : List Char → Option Nat
  | [] => none
  | x :: xs =>
    match lastIdx c xs with
    | some i => some (i + 1)
    | none => if x = c then some 0 else none

/-- `os.path.splitext(p)`: split off the extension at the last dot of the last
path component, unless that component consists only of leading dots up to it. -/
def pySplitext (p : String) : String × String :=
  let l := p.data
  let start : Nat :=
    match lastIdx '/' l with
    | some si => si + 1
    | none => 0
  match lastIdx '.' l with
  | none => (p, "")
  | some di =>
    if start ≤ di then
      if ((l.drop start).take (di - start)).any (fun c => c != '.') then
        (⟨l.take di⟩, ⟨l.drop di⟩)
      else (p, "")
    else (p, "")

/-- `os.path.join(a, b)` for POSIX paths. -/
def joinPath (a b : String) : String :=
  if b.data.head? = some '/' then b
  else if a = "" then a ++ b
  else if a.data.getLast? = some '/' then a ++ b
  else a ++ "/" ++ b

/-- `os.path.dirname(p)` for POSIX paths: everything before the last slash,
with trailing slashes stripped unless the result would be all slashes. -/
def dirname (p : String) : String :=
  let l := p.data
  match lastIdx '/' l with
  | none => ""
  | some i =>
    let head := l.take (i + 1)
    if head.any (fun c => c != '/') then
      ⟨(head.reverse.dropWhile (fun c => c == '/')).reverse⟩
    else ⟨head⟩

/-! ### unique_dest (GenerateTextures.py lines 55-64) -/

/-- The candidate names tried by `unique_dest`, in order: the desired filename
itself, then `stem_1.ext`, `stem_2.ext`, ... where `stem`/`ext` is the
`os.path.splitext` split of the desired filename and the counter is rendered
in decimal. -/
def cand (filename : String) : Nat → String
  | 0 => filename
  | k + 1 => (pySplitext filename).1 ++ "_" ++ Nat.repr (k + 1) ++ (pySplitext filename).2

/-- The `while os.path.exists(full)` loop of `unique_dest`: try candidate `i`;
while it is taken, move to the next counter.  The loop is written with explicit
fuel; `unique_dest` supplies fuel that is always sufficient because the
candidate names are pairwise distinct and only finitely many paths exist. -/
def destLoop (taken : String → Bool) (filename : String) : Nat → Nat → String
  | 0, i => cand filename i
  | fuel + 1, i =>
    if taken (cand filename i) then destLoop taken filename fuel (i + 1)
    else cand filename i

/-- `unique_dest(dest_dir, filename)`: first candidate whose join with
`dest_dir` does not exist on disk.  The disk is modelled by `fs`, the finite
list of currently existing paths (`os.path.exists full` is membership). -/
def unique_dest (fs : List String) (dest_dir filename : String) : String :=
  joinPath dest_dir
    (destLoop (fun c => fs.contains (joinPath dest_dir c)) filename (fs.length + 1) 0)

/-! ### Images and apply_half_opacity (lines 66-77) -/

/-- One RGBA pixel as produced by `Image.open(path).convert("RGBA")`. -/
structure Pixel where
  r : Nat
  g : Nat
  b : Nat
  a : Nat
deriving DecidableEq

/-- An image decoded to its RGBA pixels. -/
abbrev Image := List Pixel

/-- The per-pixel action of `a.point(lambda i: int(i * 0.5))` merged back with
the unchanged R, G, B channels: `i * 0.5` is exact for `i ≤ 255` and `int`
truncates toward zero, so the new alpha is `a / 2` in natural division. -/
def halfAlpha (p : Pixel) : Pixel :=
  { p with a := p.a / 2 }

/-- `apply_half_opacity(path)`: a no-op when the opacity switch is off;
otherwise halve the alpha channel of every pixel, keeping R, G, B. -/
def apply_half_opacity (apply_opacity : Bool) (img : Image) : Image :=
  if apply_opacity then img.map halfAlpha else img

/-! ### read_mappings (lines 40-53) -/

/-- Python dict assignment `m[key] = val`: overwrite in place if the key is
present, otherwise append. -/
def dictInsert (m : List (String × String)) (k v : String) : List (String × String) :=
  if m.any (fun e => e.1 == k) then m.map (fun e => if e.1 == k then (k, v) else e)
  else m ++ [(k, v)]

/-- Python dict membership and lookup (`key in m`, `m[key]`); keys in the
model are unique, so first match suffices. -/
def dictFind (m : List (String × String)) (k : String) : Option String :=
  (m.find? (fun e => e.1 == k)).map (fun e => e.2)

/-- `read_mappings(path)`: empty when the mapping file does not exist;
otherwise, for each raw key/value pair of the `[Mappings]` section (delivered
by the configparser, abstracted here as `items`), store the stripped,
lowercased key mapped to the stripped, extension-stripped value, dropping
entries whose normalized key is empty. -/
def read_mappings (fileExists : Bool) (items : List (String × String)) :
    List (String × String) :=
  if fileExists = false then []
  else
    items.foldl
      (fun m kv =>
        let key := lowerStr (pyStrip kv.1)
        let val := (pySplitext (pyStrip kv.2)).1
        if key ≠ "" then dictInsert m key val else m)
      []

/-! ### gather_pngs (lines 79-85) -/

/-- A directory tree: the plain files of the directory and its subdirectories,
each in the enumeration order `os.walk` reports them. -/
inductive FTree where
  | node : List String → List (String × FTree) → FTree

/-- All files seen by `os.walk(folder)` in walk order, as
(containing directory, filename) pairs: the files of a directory first, then
the subdirectories depth-first in listed order. -/
def walkEntries (root : String) : FTree → List (String × String)
  | .node files subs =>
    files.map (fun f => (root, f)) ++
      (subs.attach.map (fun s => walkEntries (joinPath root s.1.1) s.1.2)).flatten
termination_by t => sizeOf t
decreasing_by
  obtain ⟨⟨d, t⟩, hmem⟩ := s
  have h := List.sizeOf_lt_of_mem hmem
  simp only [Prod.mk.sizeOf_spec] at h
  simp
  omega

/-- `gather_pngs(folder)`: walk the tree and append, in walk order, the joined
path of every file whose name ends in `.png` case-insensitively. -/
def gather_pngs (root : String) : FTree → List String
  | .node files subs =>
    (files.filter endsPng).map (fun f => joinPath root f) ++
      (subs.attach.map (fun s => gather_pngs (joinPath root s.1.1) s.1.2)).flatten
termination_by t => sizeOf t
decreasing_by
  obtain ⟨⟨d, t⟩, hmem⟩ := s
  have h := List.sizeOf_lt_of_mem hmem
  simp only [Prod.mk.sizeOf_spec] at h
  simp
  omega

/-! ### The per-file pipeline of main (lines 101-197), per mirrored directory

`main` walks the input tree; for each directory it creates the mirrored `Wii`
and `PS2` subdirectories and then processes the directory's files in listing
order.  Files in different directories target different mirrored
subdirectories, so the state below models the two mirrored subdirectories of
one input directory together with the global `processed`/`skipped` counters.
A file is an `InputFile`: its basename, its decoded image, and the outcome of
the external splitter on it — `none` for a non-zero exit status
(`subprocess.CalledProcessError`), or the files the splitter wrote into the
scratch output directory, as (basename, image) pairs in walk enumeration
order, before the `.png` filtering done by `gather_pngs`. -/

/-- The two configuration switches of the script (lines 17-18). -/
structure RunConfig where
  apply_mapping_to_wii : Bool
  apply_opacity : Bool

/-- One file encountered in an input directory. -/
structure InputFile where
  name : String
  img : Image
  split : Option (List (String × Image))

/-- The mirrored `ps2_sub` and `wii_sub` directories (files in creation
order) and the run counters. -/
structure DirState where
  ps2 : List (String × Image)
  wii : List (String × Image)
  processed : Nat
  skipped : Nat
deriving DecidableEq

/-- `unique_dest` as invoked against a mirrored output subdirectory: the
existence check `os.path.exists(os.path.join(dest_dir, candidate))` is
membership of the candidate name in the directory listing. -/
def uniqueName (d : List (String × Image)) (filename : String) : String :=
  destLoop (fun c => (d.map Prod.fst).contains c) filename (d.length + 1) 0

/-- Lines 160-170: move each discovered png (in discovery order) into the
`wii_sub` directory, renaming to the mapped base (extension of the tile kept)
when the Wii mapping switch is on and a mapping entry exists. -/
def placeTiles (cfg : RunConfig) (mappings : List (String × String)) (base_key : String)
    (pngs : List (String × Image)) (wii : List (String × Image)) :
    List (String × Image) :=
  pngs.foldl
    (fun w t =>
      let dest_name :=
        match cfg.apply_mapping_to_wii, dictFind mappings base_key with
        | true, some dest_base => dest_base ++ (pySplitext t.1).2
        | _, _ => t.1
      w ++ [(uniqueName w dest_name, t.2)])
    wii

/-- The body of the `for fname in filenames` loop (lines 123-191) for one
file.  A non-png file only bumps `skipped`.  Otherwise the scratch copy is
made (and alpha-halved when configured), copied into `ps2_sub` under a
collision-free name, and the splitter runs: on failure the loop continues
with the flat copy retained; on success the produced pngs are moved into
`wii_sub`, and if a mapping entry exists for the normalized source basename
the flat copy is renamed (`os.replace`) to the mapped base plus `".png"`
under a collision-free name. -/
def processFile (cfg : RunConfig) (mappings : List (String × String)) (st : DirState)
    (f : InputFile) : DirState :=
  if endsPng f.name = false then { st with skipped := st.skipped + 1 }
  else
    let base_key := lowerStr (pySplitext f.name).1
    let temp_img := apply_half_opacity cfg.apply_opacity f.img
    let ps2_dest := uniqueName st.ps2 f.name
    let ps2Copied := st.ps2 ++ [(ps2_dest, temp_img)]
    match f.split with
    | none => { st with ps2 := ps2Copied }
    | some tiles =>
      let new_pngs := tiles.filter (fun t => endsPng t.1)
      let wiiPlaced := placeTiles cfg mappings base_key new_pngs st.wii
      let ps2Final :=
        match dictFind mappings base_key with
        | some mapped_base =>
          let mapped_full := uniqueName ps2Copied (mapped_base ++ ".png")
          (ps2Copied.filter (fun e => e.1 != ps2_dest)) ++ [(mapped_full, temp_img)]
        | none => ps2Copied
      { ps2 := ps2Final, wii := wiiPlaced, processed := st.processed + 1,
        skipped := st.skipped }

/-- The per-directory run: fold the loop body over the directory's files in
listing order. -/
def runDir (cfg : RunConfig) (mappings : List (String × String)) (st : DirState)
    (files : List InputFile) : DirState :=
  files.foldl (processFile cfg mappings) st

/-- The name under which the flat (PS2) copy of a processed file ends up
after the whole loop body: the collision-free version of the original
basename or, when the splitter succeeded and a mapping entry exists, the
collision-free version of the mapped base plus `".png"` chosen by the rename
of lines 175-184. -/
def ps2FinalName (cfg : RunConfig) (mappings : List (String × String)) (st : DirState)
    (f : InputFile) : String :=
  let base_key := lowerStr (pySplitext f.name).1
  let ps2_dest := uniqueName st.ps2 f.name
  match f.split, dictFind mappings base_key with
  | some _, some mapped_base =>
    uniqueName (st.ps2 ++ [(ps2_dest, apply_half_opacity cfg.apply_opacity f.img)])
      (mapped_base ++ ".png")
  | _, _ => ps2_dest

/-! ### Scratch-directory lifecycle (lines 132-191) -/

/-- Creation and removal events on the two scratch directories of one file:
`temp_src_dir` (line 132, removed in the `finally` of line 191) and
`temp_out` (line 145, removed at line 150 on splitter failure and at
line 173 on success). -/
inductive ScratchEvent where
  | createSrcDir
  | createOutDir
  | removeOutDir
  | removeSrcDir
deriving DecidableEq

/-- Effect of an event on the pair (temp_src_dir exists, temp_out exists);
`shutil.rmtree(..., ignore_errors=True)` removes unconditionally. -/
def applyScratch (s : Bool × Bool) (e : ScratchEvent) : Bool × Bool :=
  match e with
  | .createSrcDir => (true, s.2)
  | .removeSrcDir => (false, s.2)
  | .createOutDir => (s.1, true)
  | .removeOutDir => (s.1, false)

/-- The scratch events emitted while processing one file, in program order,
for each of the two exit paths of the loop body (splitter failure at line 148
versus success). -/
def fileEvents (f : InputFile) : List ScratchEvent :=
  if endsPng f.name = false then []
  else
    ScratchEvent.createSrcDir ::
      (ScratchEvent.createOutDir ::
          (match f.split with
          | none => [ScratchEvent.removeOutDir]
          | some _ => [ScratchEvent.removeOutDir]) ++
        [ScratchEvent.removeSrcDir])

/-- Which scratch directories of a file still exist once its processing
completes. -/
def scratchAfter (f : InputFile) : Bool × Bool :=
  (fileEvents f).foldl applyScratch (false, false)

/-! ### Facts about the string primitives -/

lemma pySplitext_data (p : String) :
    (pySplitext p).1.data ++ (pySplitext p).2.data = p.data := by
  simp only [pySplitext]
  cases h : lastIdx '.' p.data with
  | none => simp
  | some di =>
    simp only
    split
    · split
      · simp [List.take_append_drop di p.data]
      · simp
    · simp

/-- The decimal digits of `Nat.toDigitsCore` in base 10, related to
`Nat.digits`. -/
lemma toDigitsCore_eq_digits (fuel : Nat) :
    ∀ (n : Nat) (ds : List Char), 0 < n → n < fuel →
      Nat.toDigitsCore 10 fuel n ds
        = ((Nat.digits 10 n).map Nat.digitChar).reverse ++ ds := by
  induction fuel with
  | zero => intro n ds hn hf; omega
  | succ fuel ih =>
    intro n ds hn hf
    simp only [Nat.toDigitsCore]
    by_cases h10 : n / 10 = 0
    · rw [if_pos h10]
      have hlt : n < 10 := (Nat.div_eq_zero_iff (by norm_num : (0:ℕ) < 10)).mp h10
      rw [Nat.digits_def' (by norm_num : (1:Nat) < 10) hn, h10, Nat.digits_zero]
      have hmod : n % 10 = n := Nat.mod_eq_of_lt hlt
      simp [hmod]
    · rw [if_neg h10]
      have hdivlt : n / 10 < fuel := by
        have : n / 10 < n := Nat.div_lt_self hn (by norm_num)
        omega
      rw [ih (n / 10) _ (Nat.pos_of_ne_zero h10) hdivlt]
      rw [Nat.digits_def' (by norm_num : (1:Nat) < 10) hn]
      simp

/-- For positive `n`, the characters of `Nat.repr n` are the decimal digits
of `n`, most significant first. -/
lemma repr_data_of_pos (n : Nat) (hn : 0 < n) :
    (Nat.repr n).data = ((Nat.digits 10 n).map Nat.digitChar).reverse := by
  show (Nat.toDigits 10 n).asString.data = _
  rw [Nat.toDigits, toDigitsCore_eq_digits (n + 1) n [] hn (Nat.lt_succ_self n)]
  simp [List.asString]

lemma digitChar_inj_of_lt {d e : Nat} (hd : d < 10) (he : e < 10)
    (h : Nat.digitChar d = Nat.digitChar e) : d = e := by
  interval_cases d <;> interval_cases e <;> first | rfl | (exfalso; revert h; decide)

lemma map_digitChar_inj :
    ∀ (l₁ l₂ : List Nat), (∀ d ∈ l₁, d < 10) → (∀ d ∈ l₂, d < 10) →
      l₁.map Nat.digitChar = l₂.map Nat.digitChar → l₁ = l₂ := by
  intro l₁
  induction l₁ with
  | nil => intro l₂ _ _ h; cases l₂ <;> simp_all
  | cons d l ih =>
    intro l₂ h₁ h₂ h
    cases l₂ with
    | nil => simp at h
    | cons e l' =>
      simp only [List.map_cons, List.cons.injEq] at h
      have hd : d = e :=
        digitChar_inj_of_lt (h₁ d (by simp)) (h₂ e (by simp)) h.1
      have hl : l = l' :=
        ih l' (fun x hx => h₁ x (by simp [hx])) (fun x hx => h₂ x (by simp [hx])) h.2
      rw [hd, hl]

/-- A positive number never prints like `0`. -/
lemma repr_pos_ne_repr_zero (n : Nat) (hn : 0 < n) : Nat.repr n ≠ Nat.repr 0 := by
  intro h
  have hdata : (Nat.repr n).data = (Nat.repr 0).data := by rw [h]
  have h0 : (Nat.repr 0).data = ['0'] := rfl
  rw [repr_data_of_pos n hn, h0] at hdata
  have hdig : (Nat.digits 10 n).map Nat.digitChar = ['0'] := by
    have := congrArg List.reverse hdata
    simpa using this
  cases hd : Nat.digits 10 n with
  | nil =>
    rw [hd] at hdig
    simp at hdig
  | cons d l =>
    rw [hd] at hdig
    cases l with
    | cons _ _ => simp at hdig
    | nil =>
      simp only [List.map_cons, List.map_nil, List.cons.injEq] at hdig
      have hdlt : d < 10 :=
        Nat.digits_lt_base (by norm_num) (by rw [hd]; simp)
      have hd0 : d = 0 := by
        have h0c : Nat.digitChar d = Nat.digitChar 0 := by
          simpa using hdig.1
        exact digitChar_inj_of_lt hdlt (by norm_num) h0c
      have hn' : n = Nat.ofDigits 10 (Nat.digits 10 n) := (Nat.ofDigits_digits 10 n).symm
      rw [hd, hd0] at hn'
      simp [Nat.ofDigits] at hn'
      omega

/-- `Nat.repr` (Python's `str` on a nonnegative integer) is injective. -/
lemma natRepr_inj : Function.Injective Nat.repr := by
  intro m n h
  rcases Nat.eq_zero_or_pos m with hm | hm
  · rcases Nat.eq_zero_or_pos n with hn | hn
    · omega
    · exact absurd (hm ▸ h.symm) (repr_pos_ne_repr_zero n hn)
  · rcases Nat.eq_zero_or_pos n with hn | hn
    · exact absurd (hn ▸ h) (repr_pos_ne_repr_zero m hm)
    · have hdata : (Nat.repr m).data = (Nat.repr n).data := by rw [h]
      rw [repr_data_of_pos m hm, repr_data_of_pos n hn] at hdata
      have hmap := List.reverse_injective hdata
      have hdig : Nat.digits 10 m = Nat.digits 10 n :=
        map_digitChar_inj _ _
          (fun d hd => Nat.digits_lt_base (by norm_num) hd)
          (fun d hd => Nat.digits_lt_base (by norm_num) hd) hmap
      calc m = Nat.ofDigits 10 (Nat.digits 10 m) := (Nat.ofDigits_digits 10 m).symm
        _ = Nat.ofDigits 10 (Nat.digits 10 n) := by rw [hdig]
        _ = n := Nat.ofDigits_digits 10 n

/-- Characters of `Nat.repr` are decimal digits, in particular never `'/'`. -/
lemma repr_no_slash (n : Nat) : ∀ c ∈ (Nat.repr n).data, c ≠ '/' := by
  rcases Nat.eq_zero_or_pos n with hn | hn
  · subst hn
    intro c hc
    have h0 : (Nat.repr 0).data = ['0'] := rfl
    rw [h0] at hc
    simp at hc
    rw [hc]
    decide
  · rw [repr_data_of_pos n hn]
    intro c hc
    simp only [List.mem_reverse, List.mem_map] at hc
    obtain ⟨d, hd, rfl⟩ := hc
    have : d < 10 := Nat.digits_lt_base (by norm_num) hd
    interval_cases d <;> decide

/-! ### The candidate sequence of unique_dest -/

lemma cand_succ_data (fn : String) (k : Nat) :
    (cand fn (k + 1)).data
      = (pySplitext fn).1.data ++ ('_' :: ((Nat.repr (k + 1)).data ++ (pySplitext fn).2.data)) := by
  show ((pySplitext fn).1 ++ "_" ++ Nat.repr (k + 1) ++ (pySplitext fn).2).data = _
  simp [String.data_append]

/-- The candidate names tried by the while loop are pairwise distinct. -/
lemma cand_inj (fn : String) : Function.Injective (cand fn) := by
  intro i j h
  have hdata := congrArg String.data h
  match i, j with
  | 0, 0 => rfl
  | 0, k + 1 =>
    exfalso
    rw [cand_succ_data] at hdata
    have hfn : fn.data = (pySplitext fn).1.data ++ (pySplitext fn).2.data :=
      (pySplitext_data fn).symm
    rw [show (cand fn 0).data = fn.data from rfl, hfn] at hdata
    have := List.append_cancel_left hdata
    have hlen := congrArg List.length this
    simp at hlen
    omega
  | k + 1, 0 =>
    exfalso
    rw [cand_succ_data] at hdata
    have hfn : fn.data = (pySplitext fn).1.data ++ (pySplitext fn).2.data :=
      (pySplitext_data fn).symm
    rw [show (cand fn 0).data = fn.data from rfl, hfn] at hdata
    have := List.append_cancel_left hdata
    have hlen := congrArg List.length this
    simp at hlen
    omega
  | k + 1, l + 1 =>
    rw [cand_succ_data, cand_succ_data] at hdata
    have h1 := List.append_cancel_left hdata
    simp only [List.cons.injEq, true_and] at h1
    have h2 := List.append_cancel_right h1
    have h3 : Nat.repr (k + 1) = Nat.repr (l + 1) := String.ext h2
    have := natRepr_inj h3
    omega

/-- When the desired filename contains no separator, neither does any
candidate derived from it. -/
lemma cand_no_slash (fn : String) (hfn : ∀ c ∈ fn.data, c ≠ '/') (i : Nat) :
    ∀ c ∈ (cand fn i).data, c ≠ '/' := by
  match i with
  | 0 => exact hfn
  | k + 1 =>
    intro c hc
    rw [cand_succ_data] at hc
    have hfn' : (pySplitext fn).1.data ++ (pySplitext fn).2.data = fn.data :=
      pySplitext_data fn
    simp only [List.mem_append, List.mem_cons] at hc
    rcases hc with hc | hc | hc
    · exact hfn c (by rw [← hfn']; exact List.mem_append_left _ hc)
    · rw [hc]; decide
    · rcases hc with hc' | hc'
      · exact repr_no_slash (k + 1) c hc'
      · exact hfn c (by rw [← hfn']; exact List.mem_append_right _ hc')

/-! ### The while loop of unique_dest -/

/-- The loop always returns some candidate at an index at or beyond the one
it starts from. -/
lemma destLoop_isCand (taken : String → Bool) (fn : String) :
    ∀ (fuel i : Nat), ∃ j, destLoop taken fn fuel i = cand fn (i + j) := by
  intro fuel
  induction fuel with
  | zero => intro i; exact ⟨0, rfl⟩
  | succ fuel ih =>
    intro i
    by_cases h : taken (cand fn i) = true
    · obtain ⟨j, hj⟩ := ih (i + 1)
      refine ⟨j + 1, ?_⟩
      simp only [destLoop, h, if_true]
      rw [hj]
      congr 1
      omega
    · refine ⟨0, ?_⟩
      simp only [destLoop, Bool.not_eq_true] at h ⊢
      rw [h]
      simp

/-- If some candidate within the fuel budget is free, the loop stops at the
first free candidate. -/
lemma destLoop_spec (taken : String → Bool) (fn : String) :
    ∀ (fuel i : Nat), (∃ j, j < fuel ∧ taken (cand fn (i + j)) = false) →
      ∃ j, destLoop taken fn fuel i = cand fn (i + j) ∧
        taken (cand fn (i + j)) = false ∧
        ∀ k, k < j → taken (cand fn (i + k)) = true := by
  intro fuel
  induction fuel with
  | zero => intro i h; obtain ⟨j, hj, _⟩ := h; omega
  | succ fuel ih =>
    intro i h
    by_cases h0 : taken (cand fn i) = true
    · obtain ⟨j, hjlt, hjfree⟩ := h
      have hj0 : j ≠ 0 := by
        intro h'
        rw [h'] at hjfree
        simp at hjfree
        rw [hjfree] at h0
        simp at h0
      obtain ⟨j', rfl⟩ : ∃ j', j = j' + 1 := ⟨j - 1, by omega⟩
      have hnext : ∃ j, j < fuel ∧ taken (cand fn (i + 1 + j)) = false := by
        refine ⟨j', by omega, ?_⟩
        have : i + 1 + j' = i + (j' + 1) := by omega
        rw [this]
        exact hjfree
      obtain ⟨j'', hj1, hj2, hj3⟩ := ih (i + 1) hnext
      refine ⟨j'' + 1, ?_, ?_, ?_⟩
      · simp only [destLoop, h0, if_true]
        rw [hj1]
        congr 1
        omega
      · have : i + (j'' + 1) = i + 1 + j'' := by omega
        rw [this]
        exact hj2
      · intro k hk
        match k with
        | 0 => simpa using h0
        | k' + 1 =>
          have : i + (k' + 1) = i + 1 + k' := by omega
          rw [this]
          exact hj3 k' (by omega)
    · simp only [Bool.not_eq_true] at h0
      refine ⟨0, ?_, by simpa using h0, by omega⟩
      simp only [destLoop, h0]
      simp

/-- Pigeonhole: some candidate among the first `paths.length + 1` is not in
`paths`, because the embedded candidates are pairwise distinct while `paths`
is finite. -/
lemma exists_untaken (g : Nat → String) (hg : Function.Injective g)
    (paths : List String) :
    ∃ j, j ≤ paths.length ∧ paths.contains (g j) = false := by
  by_contra hcon
  push_neg at hcon
  have hmem : ∀ j, j ≤ paths.length → g j ∈ paths := by
    intro j hj
    have h1 := hcon j hj
    have h2 : paths.contains (g j) = true := by
      cases hc : paths.contains (g j) with
      | false => exact absurd hc h1
      | true => rfl
    simpa [List.contains] using List.elem_iff.mp h2
  have hnodup : ((List.range (paths.length + 1)).map g).Nodup :=
    (List.nodup_range _).map hg
  have hsub : (List.range (paths.length + 1)).map g ⊆ paths := by
    intro x hx
    simp only [List.mem_map, List.mem_range] at hx
    obtain ⟨j, hj, rfl⟩ := hx
    exact hmem j (by omega)
  have hlen := (List.subperm_of_subset hnodup hsub).length_le
  simp only [List.length_map, List.length_range] at hlen
  omega

/-! ### Paths: joinPath and dirname -/

lemma lastIdx_append (c : Char) (xs : List Char) :
    ∀ ys, lastIdx c (xs ++ ys)
      = match lastIdx c ys with
        | some i => some (xs.length + i)
        | none => lastIdx c xs := by
  induction xs with
  | nil =>
    intro ys
    show lastIdx c ys = _
    cases h : lastIdx c ys with
    | some i => simp
    | none => rfl
  | cons x xs ih =>
    intro ys
    show lastIdx c (x :: (xs ++ ys)) = _
    rw [lastIdx, ih ys]
    cases h : lastIdx c ys with
    | some i =>
      show some (xs.length + i + 1) = some (xs.length + 1 + i)
      congr 1
      omega
    | none => rfl

lemma lastIdx_of_not_mem (c : Char) (l : List Char) (h : ∀ x ∈ l, x ≠ c) :
    lastIdx c l = none := by
  induction l with
  | nil => rfl
  | cons x xs ih =>
    rw [lastIdx, ih (fun y hy => h y (List.mem_cons_of_mem x hy))]
    simp only [if_neg (h x (List.mem_cons_self x xs))]

/-- With a well-formed directory (nonempty, no trailing separator) and a
separator-free name, `os.path.join` is plain concatenation with one
separator. -/
lemma joinPath_eq (a b : String) (ha0 : a ≠ "") (ha1 : a.data.getLast? ≠ some '/')
    (hb : ∀ c ∈ b.data, c ≠ '/') :
    joinPath a b = a ++ "/" ++ b := by
  unfold joinPath
  have h1 : ¬ b.data.head? = some '/' := by
    cases hbd : b.data with
    | nil => simp
    | cons x xs =>
      simp only [List.head?_cons, Option.some.injEq]
      exact hb x (by rw [hbd]; simp)
  rw [if_neg h1, if_neg ha0, if_neg ha1]

lemma joinPath_data (a b : String) (ha0 : a ≠ "") (ha1 : a.data.getLast? ≠ some '/')
    (hb : ∀ c ∈ b.data, c ≠ '/') :
    (joinPath a b).data = a.data ++ '/' :: b.data := by
  rw [joinPath_eq a b ha0 ha1 hb]
  simp [String.data_append]

lemma joinPath_inj_on (a : String) (ha0 : a ≠ "") (ha1 : a.data.getLast? ≠ some '/')
    {b c : String} (hb : ∀ x ∈ b.data, x ≠ '/') (hc : ∀ x ∈ c.data, x ≠ '/')
    (h : joinPath a b = joinPath a c) : b = c := by
  have hdata := congrArg String.data h
  rw [joinPath_data a b ha0 ha1 hb, joinPath_data a c ha0 ha1 hc] at hdata
  have := List.append_cancel_left hdata
  simp only [List.cons.injEq, true_and] at this
  exact String.ext this

/-- `os.path.dirname` undoes the join: the parent of `join a b` is `a`. -/
lemma dirname_joinPath (a b : String) (ha0 : a ≠ "") (ha1 : a.data.getLast? ≠ some '/')
    (hb : ∀ c ∈ b.data, c ≠ '/') :
    dirname (joinPath a b) = a := by
  have hdata := joinPath_data a b ha0 ha1 hb
  unfold dirname
  rw [hdata]
  have hli : lastIdx '/' (a.data ++ '/' :: b.data) = some a.data.length := by
    rw [lastIdx_append]
    have hbnone : lastIdx '/' b.data = none :=
      lastIdx_of_not_mem '/' b.data hb
    show (match lastIdx '/' ('/' :: b.data) with
          | some i => some (a.data.length + i)
          | none => lastIdx '/' a.data) = _
    rw [lastIdx, hbnone]
    simp
  simp only [hli]
  have htake : (a.data ++ '/' :: b.data).take (a.data.length + 1) = a.data ++ ['/'] := by
    have heq : a.data ++ '/' :: b.data = (a.data ++ ['/']) ++ b.data := by simp
    rw [heq]
    have hlen : a.data.length + 1 = (a.data ++ ['/']).length := by simp
    rw [hlen, List.take_left]
  simp only [htake]
  have hlast : ∃ y, a.data.getLast? = some y ∧ y ∈ a.data := by
    cases hal : a.data with
    | nil =>
      exfalso
      exact ha0 (String.ext (by simp [hal]))
    | cons x xs =>
      exact ⟨(x :: xs).getLast (by simp), by simp [List.getLast?_eq_getLast],
        List.getLast_mem _⟩
  obtain ⟨y, hy1, hy2⟩ := hlast
  have hyne : y ≠ '/' := by
    intro h'
    rw [h'] at hy1
    exact ha1 hy1
  have hany : (a.data ++ ['/']).any (fun c => c != '/') = true := by
    simp only [List.any_eq_true]
    exact ⟨y, List.mem_append_left _ hy2, by simp [hyne]⟩
  rw [if_pos hany]
  have hrev : (a.data ++ ['/']).reverse = '/' :: a.data.reverse := by simp
  rw [hrev]
  have hdrop : List.dropWhile (fun c => c == '/') ('/' :: a.data.reverse)
      = List.dropWhile (fun c => c == '/') a.data.reverse := by
    simp [List.dropWhile_cons]
  rw [hdrop]
  have hdrop2 : List.dropWhile (fun c => c == '/') a.data.reverse = a.data.reverse := by
    cases har : a.data.reverse with
    | nil => rfl
    | cons z zs =>
      have hz : z = y := by
        have := List.head?_reverse a.data
        rw [har] at this
        simp only [List.head?_cons] at this
        rw [hy1] at this
        exact Option.some.inj this
      rw [List.dropWhile_cons, if_neg]
      simp [hz, hyne]
  rw [hdrop2]
  exact String.ext (by simp)

/-! ### Correctness of unique_dest and uniqueName -/

/-- The name chosen against a directory listing: it is some candidate, it is
not taken by any file already in the directory, and every earlier candidate
is taken. -/
lemma uniqueName_spec (d : List (String × Image)) (fn : String) :
    ∃ j, uniqueName d fn = cand fn j ∧
      (d.map Prod.fst).contains (cand fn j) = false ∧
      ∀ k, k < j → (d.map Prod.fst).contains (cand fn k) = true := by
  obtain ⟨j0, hj0le, hj0free⟩ := exists_untaken (cand fn) (cand_inj fn) (d.map Prod.fst)
  have hfuel : ∃ j, j < d.length + 1 ∧
      (fun c => (d.map Prod.fst).contains c) (cand fn (0 + j)) = false := by
    refine ⟨j0, ?_, ?_⟩
    · have : (d.map Prod.fst).length = d.length := List.length_map d Prod.fst
      omega
    · simpa using hj0free
  obtain ⟨j, hj1, hj2, hj3⟩ :=
    destLoop_spec (fun c => (d.map Prod.fst).contains c) fn (d.length + 1) 0 hfuel
  refine ⟨j, ?_, by simpa using hj2, fun k hk => by simpa using hj3 k hk⟩
  show destLoop _ fn (d.length + 1) 0 = _
  rw [hj1]
  simp

/-- The chosen name is fresh: no existing entry of the directory carries it. -/
lemma uniqueName_fresh (d : List (String × Image)) (fn : String) :
    ∀ e ∈ d, e.1 ≠ uniqueName d fn := by
  obtain ⟨j, hj1, hj2, _⟩ := uniqueName_spec d fn
  intro e he h
  have hmem : cand fn j ∈ d.map Prod.fst := by
    rw [← hj1, ← h]
    exact List.mem_map_of_mem Prod.fst he
  have hc : (d.map Prod.fst).contains (cand fn j) = true := by
    simpa [List.contains] using List.elem_eq_true_of_mem hmem
  rw [hj2] at hc
  exact Bool.false_ne_true hc

/-- Full characterization of `unique_dest` against the disk `fs`: the result
is the join of the directory with the first candidate whose join does not
exist, found within the fuel budget. -/
lemma unique_dest_full_spec (fs : List String) (dd fn : String)
    (hfn : ∀ c ∈ fn.data, c ≠ '/') (hd0 : dd ≠ "")
    (hd1 : dd.data.getLast? ≠ some '/') :
    ∃ i, unique_dest fs dd fn = joinPath dd (cand fn i) ∧
      fs.contains (joinPath dd (cand fn i)) = false ∧
      (∀ j, j < i → fs.contains (joinPath dd (cand fn j)) = true) ∧
      i ≤ fs.length := by
  have hg : Function.Injective (fun j => joinPath dd (cand fn j)) := by
    intro i j h
    exact cand_inj fn
      (joinPath_inj_on dd hd0 hd1 (cand_no_slash fn hfn i) (cand_no_slash fn hfn j) h)
  obtain ⟨j0, hj0le, hj0free⟩ := exists_untaken _ hg fs
  have hfuel : ∃ j, j < fs.length + 1 ∧
      (fun c => fs.contains (joinPath dd c)) (cand fn (0 + j)) = false := by
    exact ⟨j0, by omega, by simpa using hj0free⟩
  obtain ⟨j, hj1, hj2, hj3⟩ :=
    destLoop_spec (fun c => fs.contains (joinPath dd c)) fn (fs.length + 1) 0 hfuel
  have hjle : j ≤ j0 := by
    by_contra hgt
    have := hj3 j0 (by omega)
    simp only [Nat.zero_add] at this
    rw [this] at hj0free
    exact Bool.noConfusion hj0free
  refine ⟨j, ?_, by simpa using hj2, fun k hk => by simpa using hj3 k hk, by omega⟩
  show joinPath dd (destLoop _ fn (fs.length + 1) 0) = _
  rw [hj1]
  simp

/-! ### Facts about read_mappings -/

lemma dictInsert_mem (m : List (String × String)) (k v : String) :
    ∀ e ∈ dictInsert m k v, e = (k, v) ∨ e ∈ m := by
  intro e he
  unfold dictInsert at he
  by_cases h : m.any (fun e => e.1 == k) = true
  · rw [if_pos h] at he
    obtain ⟨x, hx, hxe⟩ := List.mem_map.mp he
    by_cases hk : (x.1 == k) = true
    · rw [if_pos hk] at hxe
      exact Or.inl hxe.symm
    · rw [if_neg hk] at hxe
      exact Or.inr (hxe ▸ hx)
  · rw [if_neg h] at he
    rcases List.mem_append.mp he with h' | h'
    · exact Or.inr h'
    · simp only [List.mem_singleton] at h'
      exact Or.inl h'

lemma find?_cons_false {α : Type} (p : α → Bool) (a : α) (l : List α)
    (h : p a = false) : (a :: l).find? p = l.find? p := by
  rw [List.find?]
  rw [h]

lemma find?_cons_true {α : Type} (p : α → Bool) (a : α) (l : List α)
    (h : p a = true) : (a :: l).find? p = some a := by
  rw [List.find?]
  rw [h]

lemma dictFind_dictInsert_self (m : List (String × String)) (k v : String) :
    dictFind (dictInsert m k v) k = some v := by
  induction m with
  | nil => simp [dictInsert, dictFind, List.find?]
  | cons e es ih =>
    by_cases he : (e.1 == k) = true
    · have hany : (e :: es).any (fun x => x.1 == k) = true := by
        simp [List.any_cons, he]
      simp only [dictInsert, hany, if_true, List.map_cons, if_pos he]
      simp [dictFind, List.find?]
    · by_cases ha : es.any (fun x => x.1 == k) = true
      · have hany : (e :: es).any (fun x => x.1 == k) = true := by
          simp [List.any_cons, ha]
        simp only [dictInsert, hany, if_true, List.map_cons, if_neg he]
        have ih' : dictFind (es.map (fun x => if x.1 == k then (k, v) else x)) k
            = some v := by
          have h2 := ih
          simp only [dictInsert, ha, if_true] at h2
          exact h2
        rw [dictFind, find?_cons_false (fun x : String × String => x.1 == k) e _
          (by simpa using he)]
        simpa [dictFind] using ih'
      · have he' : (e.1 == k) = false := by
          cases hb : (e.1 == k) with
          | true => exact absurd hb he
          | false => rfl
        have ha' : es.any (fun x => x.1 == k) = false := by
          cases hb : es.any (fun x => x.1 == k) with
          | true => exact absurd hb ha
          | false => rfl
        have hany : (e :: es).any (fun x => x.1 == k) = false := by
          rw [List.any_cons, he', ha']
          rfl
        simp only [dictInsert, hany, Bool.false_eq_true, if_false, List.cons_append]
        have ih' : dictFind (es ++ [(k, v)]) k = some v := by
          have h2 := ih
          simp only [dictInsert, ha', Bool.false_eq_true, if_false] at h2
          exact h2
        rw [dictFind, find?_cons_false (fun x : String × String => x.1 == k) e _ he']
        simpa [dictFind] using ih'

lemma find?_map_update (es : List (String × String)) (k v k' : String) (hne : k' ≠ k) :
    (es.map (fun e => if e.1 == k then (k, v) else e)).find? (fun e => e.1 == k')
      = es.find? (fun e => e.1 == k') := by
  induction es with
  | nil => rfl
  | cons e es ih =>
    by_cases he : (e.1 == k) = true
    · have h1 : e.1 = k := by simpa using he
      rw [List.map_cons, if_pos he]
      have h2 : (((k, v) : String × String).1 == k') = false := by
        simp only [beq_eq_false_iff_ne, ne_eq]
        exact fun h => hne h.symm
      have h3 : (e.1 == k') = false := by
        simp only [beq_eq_false_iff_ne, ne_eq, h1]
        exact fun h => hne h.symm
      rw [find?_cons_false (fun x : String × String => x.1 == k') ((k, v)) _ h2,
        find?_cons_false (fun x : String × String => x.1 == k') e _ h3]
      exact ih
    · rw [List.map_cons, if_neg he]
      by_cases hk' : (e.1 == k') = true
      · rw [find?_cons_true (fun x : String × String => x.1 == k') e _ hk',
          find?_cons_true (fun x : String × String => x.1 == k') e _ hk']
      · have hk'' : (e.1 == k') = false := by
          cases hb : (e.1 == k') with
          | true => exact absurd hb hk'
          | false => rfl
        rw [find?_cons_false (fun x : String × String => x.1 == k') e _ hk'',
          find?_cons_false (fun x : String × String => x.1 == k') e _ hk'']
        exact ih

lemma dictFind_dictInsert_other (m : List (String × String)) (k v k' : String)
    (hne : k' ≠ k) :
    dictFind (dictInsert m k v) k' = dictFind m k' := by
  unfold dictInsert
  by_cases h : m.any (fun e => e.1 == k) = true
  · rw [if_pos h]
    unfold dictFind
    rw [find?_map_update m k v k' hne]
  · rw [if_neg h]
    unfold dictFind
    rw [List.find?_append]
    have hnone : (([(k, v)] : List (String × String)).find? (fun e => e.1 == k'))
        = none := by
      rw [find?_cons_false (fun x : String × String => x.1 == k') ((k, v)) [] (by
        simp only [beq_eq_false_iff_ne, ne_eq]
        exact fun h' => hne h'.symm)]
      rfl
    rw [hnone]
    simp

/-- Zeta-reduced form of the loop body of `read_mappings`. -/
lemma read_step_eq (m : List (String × String)) (kv : String × String) :
    (let key := lowerStr (pyStrip kv.1)
     let val := (pySplitext (pyStrip kv.2)).1
     if key ≠ "" then dictInsert m key val else m)
      = if lowerStr (pyStrip kv.1) ≠ ""
        then dictInsert m (lowerStr (pyStrip kv.1)) ((pySplitext (pyStrip kv.2)).1)
        else m := rfl

lemma read_mappings_foldl_entries :
    ∀ (its m : List (String × String)),
      ∀ e ∈ its.foldl
          (fun m kv =>
            let key := lowerStr (pyStrip kv.1)
            let val := (pySplitext (pyStrip kv.2)).1
            if key ≠ "" then dictInsert m key val else m) m,
        (e.1 ≠ "" ∧ ∃ kv ∈ its,
          e.1 = lowerStr (pyStrip kv.1) ∧ e.2 = (pySplitext (pyStrip kv.2)).1)
          ∨ e ∈ m := by
  intro its
  induction its with
  | nil => intro m e he; exact Or.inr he
  | cons kv rest ih =>
    intro m e he
    rw [List.foldl_cons] at he
    rcases ih _ e he with h | h
    · left
      obtain ⟨hne, kv', hkv', h1, h2⟩ := h
      exact ⟨hne, kv', List.mem_cons_of_mem kv hkv', h1, h2⟩
    · rw [read_step_eq] at h
      by_cases hk : lowerStr (pyStrip kv.1) ≠ ""
      · rw [if_pos hk] at h
        rcases dictInsert_mem _ _ _ e h with h' | h'
        · left
          refine ⟨?_, kv, List.mem_cons_self kv rest, ?_, ?_⟩
          · rw [h']; exact hk
          · rw [h']
          · rw [h']
        · exact Or.inr h'
      · rw [if_neg hk] at h
        exact Or.inr h

/-- Every entry stored by `read_mappings` has a nonempty normalized key and
is the normalization of some raw item. -/
lemma read_mappings_entries (items : List (String × String)) :
    ∀ e ∈ read_mappings true items,
      e.1 ≠ "" ∧ ∃ kv ∈ items,
        e.1 = lowerStr (pyStrip kv.1) ∧ e.2 = (pySplitext (pyStrip kv.2)).1 := by
  intro e he
  have h : e ∈ List.foldl _ [] items := he
  rcases read_mappings_foldl_entries items [] e he with h' | h'
  · exact h'
  · simp at h'

/-- Processing one more raw item at the end of the file: a nonempty
normalized key overwrites, an empty one is dropped. -/
lemma read_mappings_snoc (items : List (String × String)) (kv : String × String) :
    read_mappings true (items ++ [kv])
      = if lowerStr (pyStrip kv.1) ≠ ""
        then dictInsert (read_mappings true items) (lowerStr (pyStrip kv.1))
          ((pySplitext (pyStrip kv.2)).1)
        else read_mappings true items := by
  unfold read_mappings
  rw [List.foldl_append]
  rfl

/-! ### Walk order of gather_pngs -/

/-- Structural induction for directory trees. -/
lemma ftree_rec (motive : FTree → Prop)
    (h : ∀ files subs, (∀ p ∈ subs, motive p.2) → motive (FTree.node files subs)) :
    ∀ t, motive t
  | .node files subs => h files subs (fun p _hp => ftree_rec motive h p.2)
termination_by t => sizeOf t
decreasing_by
  obtain ⟨a, b⟩ := p
  have hs := List.sizeOf_lt_of_mem _hp
  simp only [Prod.mk.sizeOf_spec] at hs
  simp
  omega

lemma walkEntries_node (root : String) (files : List String)
    (subs : List (String × FTree)) :
    walkEntries root (.node files subs)
      = files.map (fun f => (root, f)) ++
          (subs.map (fun s => walkEntries (joinPath root s.1) s.2)).flatten := by
  rw [walkEntries]
  congr 1
  rw [List.attach_map_val subs (fun s => walkEntries (joinPath root s.1) s.2)]

lemma gather_pngs_node (root : String) (files : List String)
    (subs : List (String × FTree)) :
    gather_pngs root (.node files subs)
      = (files.filter endsPng).map (fun f => joinPath root f) ++
          (subs.map (fun s => gather_pngs (joinPath root s.1) s.2)).flatten := by
  rw [gather_pngs]
  congr 1
  rw [List.attach_map_val subs (fun s => gather_pngs (joinPath root s.1) s.2)]

/-- `gather_pngs` is exactly the walk enumeration restricted to png-suffixed
names and joined with the directory walked through: discovery order is walk
order, with no sorting. -/
lemma gather_eq_walk :
    ∀ (t : FTree) (root : String),
      gather_pngs root t
        = ((walkEntries root t).filter (fun e => endsPng e.2)).map
            (fun e => joinPath e.1 e.2) := by
  refine ftree_rec _ ?_
  intro files subs ih root
  rw [gather_pngs_node, walkEntries_node, List.filter_append, List.map_append]
  congr 1
  · induction files with
    | nil => rfl
    | cons f fs ihf =>
      by_cases hf : endsPng f = true
      · simp [List.filter_cons, hf, ihf]
      · simp [List.filter_cons, hf, ihf]
  · rw [List.filter_flatten, List.map_flatten, List.map_map, List.map_map]
    congr 1
    refine List.map_congr_left ?_
    intro s hs
    exact ih s hs (joinPath root s.1)

/-! ### Facts about the per-file pipeline -/

lemma processFile_nonpng (cfg : RunConfig) (m : List (String × String)) (st : DirState)
    (f : InputFile) (h : endsPng f.name = false) :
    processFile cfg m st f = { st with skipped := st.skipped + 1 } := by
  simp [processFile, h]

lemma processFile_fail (cfg : RunConfig) (m : List (String × String)) (st : DirState)
    (f : InputFile) (hpng : endsPng f.name = true) (hfail : f.split = none) :
    processFile cfg m st f
      = { st with ps2 := st.ps2 ++
          [(uniqueName st.ps2 f.name, apply_half_opacity cfg.apply_opacity f.img)] } := by
  simp [processFile, hpng, hfail]

lemma filter_fresh_append (d : List (String × Image)) (n : String) (img : Image)
    (hfresh : ∀ e ∈ d, e.1 ≠ n) :
    (d ++ [(n, img)]).filter (fun e => e.1 != n) = d := by
  rw [List.filter_append]
  have h1 : d.filter (fun e => e.1 != n) = d :=
    List.filter_eq_self.mpr (fun e he => by simpa using hfresh e he)
  have h2 : ([(n, img)] : List (String × Image)).filter (fun e => e.1 != n) = [] := by
    simp
  rw [h1, h2, List.append_nil]

lemma processFile_success_unmapped (cfg : RunConfig) (m : List (String × String))
    (st : DirState) (f : InputFile) (tiles : List (String × Image))
    (hpng : endsPng f.name = true) (hs : f.split = some tiles)
    (hmap : dictFind m (lowerStr (pySplitext f.name).1) = none) :
    processFile cfg m st f
      = { ps2 := st.ps2 ++
            [(uniqueName st.ps2 f.name, apply_half_opacity cfg.apply_opacity f.img)],
          wii := placeTiles cfg m (lowerStr (pySplitext f.name).1)
            (tiles.filter (fun t => endsPng t.1)) st.wii,
          processed := st.processed + 1,
          skipped := st.skipped } := by
  simp [processFile, hpng, hs, hmap]

lemma processFile_success_mapped (cfg : RunConfig) (m : List (String × String))
    (st : DirState) (f : InputFile) (tiles : List (String × Image)) (mb : String)
    (hpng : endsPng f.name = true) (hs : f.split = some tiles)
    (hmap : dictFind m (lowerStr (pySplitext f.name).1) = some mb) :
    processFile cfg m st f
      = { ps2 := st.ps2 ++
            [(uniqueName
                (st.ps2 ++ [(uniqueName st.ps2 f.name,
                  apply_half_opacity cfg.apply_opacity f.img)])
                (mb ++ ".png"),
              apply_half_opacity cfg.apply_opacity f.img)],
          wii := placeTiles cfg m (lowerStr (pySplitext f.name).1)
            (tiles.filter (fun t => endsPng t.1)) st.wii,
          processed := st.processed + 1,
          skipped := st.skipped } := by
  have hfilter := filter_fresh_append st.ps2 (uniqueName st.ps2 f.name)
    (apply_half_opacity cfg.apply_opacity f.img) (uniqueName_fresh st.ps2 f.name)
  simp only [processFile, hpng, Bool.true_eq_false, if_false, hs, hmap]
  rw [hfilter]

/-- The flat (PS2) directory after the loop body for a png: its prior entries
are untouched and exactly one entry is appended, holding the transformed
image under the name `ps2FinalName`. -/
lemma processFile_ps2 (cfg : RunConfig) (m : List (String × String)) (st : DirState)
    (f : InputFile) (hpng : endsPng f.name = true) :
    (processFile cfg m st f).ps2
      = st.ps2 ++ [(ps2FinalName cfg m st f,
          apply_half_opacity cfg.apply_opacity f.img)] := by
  cases hs : f.split with
  | none =>
    rw [processFile_fail cfg m st f hpng hs]
    simp [ps2FinalName, hs]
  | some tiles =>
    cases hmap : dictFind m (lowerStr (pySplitext f.name).1) with
    | none =>
      rw [processFile_success_unmapped cfg m st f tiles hpng hs hmap]
      simp [ps2FinalName, hs, hmap]
    | some mb =>
      rw [processFile_success_mapped cfg m st f tiles mb hpng hs hmap]
      simp [ps2FinalName, hs, hmap]

/-- The final flat name is fresh with respect to the directory before the
file was processed: nothing is overwritten. -/
lemma ps2FinalName_fresh (cfg : RunConfig) (m : List (String × String)) (st : DirState)
    (f : InputFile) :
    ∀ e ∈ st.ps2, e.1 ≠ ps2FinalName cfg m st f := by
  simp only [ps2FinalName]
  cases hs : f.split with
  | none => exact uniqueName_fresh st.ps2 f.name
  | some tiles =>
    cases hmap : dictFind m (lowerStr (pySplitext f.name).1) with
    | none => exact uniqueName_fresh st.ps2 f.name
    | some mb =>
      intro e he
      exact uniqueName_fresh _ (mb ++ ".png") e (List.mem_append_left _ he)

lemma placeTiles_length (cfg : RunConfig) (m : List (String × String)) (bk : String) :
    ∀ (pngs w : List (String × Image)),
      (placeTiles cfg m bk pngs w).length = w.length + pngs.length := by
  intro pngs
  induction pngs with
  | nil => intro w; simp [placeTiles]
  | cons t ts ih =>
    intro w
    show (placeTiles cfg m bk ts _).length = _
    rw [ih]
    simp only [List.length_append, List.length_cons, List.length_nil]
    omega

lemma runDir_nil (cfg : RunConfig) (m : List (String × String)) (st : DirState) :
    runDir cfg m st [] = st := rfl

lemma runDir_cons (cfg : RunConfig) (m : List (String × String)) (st : DirState)
    (f : InputFile) (rest : List InputFile) :
    runDir cfg m st (f :: rest) = runDir cfg m (processFile cfg m st f) rest := rfl

/-- The run counters: `processed` counts exactly the png files whose splitter
succeeded, `skipped` counts exactly the non-png files. -/
lemma runDir_counts (cfg : RunConfig) (m : List (String × String)) :
    ∀ (files : List InputFile) (st : DirState),
      (runDir cfg m st files).processed
          = st.processed + files.countP (fun f => endsPng f.name && f.split.isSome)
        ∧ (runDir cfg m st files).skipped
          = st.skipped + files.countP (fun f => !endsPng f.name) := by
  intro files
  induction files with
  | nil => intro st; simp [runDir]
  | cons f rest ih =>
    intro st
    rw [runDir_cons]
    obtain ⟨ih1, ih2⟩ := ih (processFile cfg m st f)
    have hcp : ∀ (g : InputFile → Bool),
        (f :: rest).countP g = rest.countP g + if g f then 1 else 0 :=
      fun g => List.countP_cons g f rest
    by_cases hp : endsPng f.name = true
    · cases hsplit : f.split with
      | none =>
        rw [processFile_fail cfg m st f hp hsplit] at ih1 ih2 ⊢
        constructor
        · rw [ih1, hcp]
          simp [hp, hsplit]
        · rw [ih2, hcp]
          simp [hp]
      | some tiles =>
        cases hmap : dictFind m (lowerStr (pySplitext f.name).1) with
        | none =>
          rw [processFile_success_unmapped cfg m st f tiles hp hsplit hmap] at ih1 ih2 ⊢
          constructor
          · rw [ih1, hcp]
            simp only [hp, hsplit, Option.isSome_some, Bool.and_self, if_true]
            omega
          · rw [ih2, hcp]
            simp [hp]
        | some mb =>
          rw [processFile_success_mapped cfg m st f tiles mb hp hsplit hmap] at ih1 ih2 ⊢
          constructor
          · rw [ih1, hcp]
            simp only [hp, hsplit, Option.isSome_some, Bool.and_self, if_true]
            omega
          · rw [ih2, hcp]
            simp [hp]
    · have hp' : endsPng f.name = false := by
        cases hb : endsPng f.name with
        | true => exact absurd hb hp
        | false => rfl
      rw [processFile_nonpng cfg m st f hp'] at ih1 ih2 ⊢
      constructor
      · rw [ih1, hcp]
        simp [hp']
      · rw [ih2, hcp]
        simp only [hp', Bool.not_false, if_true]
        omega

/-! ### Claim theorems -/

/-- C2: for every disk state and well-formed directory and filename,
`unique_dest` returns a path whose parent directory is the given directory
and which does not exist on disk at call time; the returned path is the
first candidate of the sequence desiredName, stem_1.ext, stem_2.ext, ...
that does not exist, so no existing file is overwritten through it. -/
theorem c2_unique_dest_contract (fs : List String) (dd fn : String)
    (hfn : ∀ c ∈ fn.data, c ≠ '/') (hd0 : dd ≠ "")
    (hd1 : dd.data.getLast? ≠ some '/') :
    dirname (unique_dest fs dd fn) = dd
    ∧ fs.contains (unique_dest fs dd fn) = false
    ∧ ∃ i, unique_dest fs dd fn = joinPath dd (cand fn i)
        ∧ ∀ j, j < i → fs.contains (joinPath dd (cand fn j)) = true := by
  obtain ⟨i, h1, h2, h3, _⟩ := unique_dest_full_spec fs dd fn hfn hd0 hd1
  refine ⟨?_, ?_, ⟨i, h1, h3⟩⟩
  · obtain ⟨j, hj⟩ :=
      destLoop_isCand (fun c => fs.contains (joinPath dd c)) fn (fs.length + 1) 0
    unfold unique_dest
    rw [hj]
    exact dirname_joinPath dd (cand fn (0 + j)) hd0 hd1 (cand_no_slash fn hfn (0 + j))
  · rw [h1]
    exact h2

theorem c2_unique_dest_contract_witness :
    dirname (unique_dest ["d/a.png"] "d" "a.png") = "d"
    ∧ (["d/a.png"] : List String).contains (unique_dest ["d/a.png"] "d" "a.png") = false
    ∧ ∃ i, unique_dest ["d/a.png"] "d" "a.png" = joinPath "d" (cand "a.png" i)
        ∧ ∀ j, j < i →
            (["d/a.png"] : List String).contains (joinPath "d" (cand "a.png" j)) = true :=
  c2_unique_dest_contract ["d/a.png"] "d" "a.png" (by decide) (by decide) (by decide)

/-- C10: `unique_dest` terminates on every finite disk: the candidate names
are pairwise distinct, so a free candidate exists within the first
`fs.length + 1` candidates, and the loop returns at the least free index. -/
theorem c10_unique_dest_terminates (fs : List String) (dd fn : String)
    (hfn : ∀ c ∈ fn.data, c ≠ '/') (hd0 : dd ≠ "")
    (hd1 : dd.data.getLast? ≠ some '/') :
    Function.Injective (cand fn)
    ∧ ∃ i, i ≤ fs.length
        ∧ unique_dest fs dd fn = joinPath dd (cand fn i)
        ∧ fs.contains (joinPath dd (cand fn i)) = false
        ∧ ∀ j, j < i → fs.contains (joinPath dd (cand fn j)) = true := by
  obtain ⟨i, h1, h2, h3, h4⟩ := unique_dest_full_spec fs dd fn hfn hd0 hd1
  exact ⟨cand_inj fn, i, h4, h1, h2, h3⟩

theorem c10_unique_dest_terminates_witness :
    Function.Injective (cand "x.png")
    ∧ ∃ i, i ≤ (["p/x.png", "p/x_1.png"] : List String).length
        ∧ unique_dest ["p/x.png", "p/x_1.png"] "p" "x.png" = joinPath "p" (cand "x.png" i)
        ∧ (["p/x.png", "p/x_1.png"] : List String).contains
            (joinPath "p" (cand "x.png" i)) = false
        ∧ ∀ j, j < i →
            (["p/x.png", "p/x_1.png"] : List String).contains
              (joinPath "p" (cand "x.png" j)) = true :=
  c10_unique_dest_terminates ["p/x.png", "p/x_1.png"] "p" "x.png"
    (by decide) (by decide) (by decide)

/-- C3: a splitter failure is contained to its file: the loop body only
bumps the flat tree by the copy already written before the split (under its
pre-mapping name, so no mapped rename is attempted), the Wii directory and
the processed counter are untouched, both scratch directories are gone, and
the run continues with the next file. -/
theorem c3_splitter_failure_contained (cfg : RunConfig) (m : List (String × String))
    (st : DirState) (f : InputFile) (rest : List InputFile)
    (hpng : endsPng f.name = true) (hfail : f.split = none) :
    processFile cfg m st f
        = { st with ps2 := st.ps2 ++
            [(uniqueName st.ps2 f.name, apply_half_opacity cfg.apply_opacity f.img)] }
    ∧ (processFile cfg m st f).wii = st.wii
    ∧ (processFile cfg m st f).processed = st.processed
    ∧ scratchAfter f = (false, false)
    ∧ runDir cfg m st (f :: rest) = runDir cfg m (processFile cfg m st f) rest := by
  have hp := processFile_fail cfg m st f hpng hfail
  refine ⟨hp, by rw [hp], by rw [hp], ?_, rfl⟩
  unfold scratchAfter fileEvents
  rw [if_neg (by simp [hpng]), hfail]
  rfl

theorem c3_splitter_failure_contained_witness :
    processFile ⟨false, false⟩ [] ⟨[], [], 0, 0⟩ ⟨"y.png", [], none⟩
        = { (⟨[], [], 0, 0⟩ : DirState) with ps2 := [] ++
            [(uniqueName [] "y.png", apply_half_opacity false [])] }
    ∧ (processFile ⟨false, false⟩ [] ⟨[], [], 0, 0⟩ ⟨"y.png", [], none⟩).wii = []
    ∧ (processFile ⟨false, false⟩ [] ⟨[], [], 0, 0⟩ ⟨"y.png", [], none⟩).processed = 0
    ∧ scratchAfter ⟨"y.png", [], none⟩ = (false, false)
    ∧ runDir ⟨false, false⟩ [] ⟨[], [], 0, 0⟩ [⟨"y.png", [], none⟩]
        = runDir ⟨false, false⟩ []
            (processFile ⟨false, false⟩ [] ⟨[], [], 0, 0⟩ ⟨"y.png", [], none⟩) [] :=
  c3_splitter_failure_contained ⟨false, false⟩ [] ⟨[], [], 0, 0⟩ ⟨"y.png", [], none⟩ []
    (by decide) rfl

/-- C5: for every input file, neither of the two scratch directories created
for it exists once its processing completes, whether the file was skipped as
non-png, the splitter failed, or everything succeeded. -/
theorem c5_scratch_dirs_removed : ∀ f : InputFile, scratchAfter f = (false, false) := by
  intro f
  unfold scratchAfter fileEvents
  by_cases h : endsPng f.name = false
  · rw [if_pos h]
    rfl
  · rw [if_neg h]
    cases f.split <;> rfl

/-- C1 (amended): for every png file the loop body appends exactly one entry
to the flat tree, never touching or overwriting existing entries; its name
is the first collision-free candidate seeded with the original basename, or,
when the splitter succeeded and a mapping entry exists for the normalized
basename, the first collision-free candidate seeded with the mapped base
plus the literal ".png". -/
theorem c1_flat_tree_single_entry (cfg : RunConfig) (m : List (String × String))
    (st : DirState) (f : InputFile) (hpng : endsPng f.name = true) :
    (processFile cfg m st f).ps2
        = st.ps2 ++ [(ps2FinalName cfg m st f, apply_half_opacity cfg.apply_opacity f.img)]
    ∧ (∀ e ∈ st.ps2, e.1 ≠ ps2FinalName cfg m st f)
    ∧ ((f.split = none ∨ dictFind m (lowerStr (pySplitext f.name).1) = none) →
        ps2FinalName cfg m st f = uniqueName st.ps2 f.name)
    ∧ (∀ tiles mb, f.split = some tiles →
        dictFind m (lowerStr (pySplitext f.name).1) = some mb →
        ps2FinalName cfg m st f
          = uniqueName (st.ps2 ++ [(uniqueName st.ps2 f.name,
              apply_half_opacity cfg.apply_opacity f.img)]) (mb ++ ".png")) := by
  refine ⟨processFile_ps2 cfg m st f hpng, ps2FinalName_fresh cfg m st f, ?_, ?_⟩
  · intro h
    cases hs : f.split with
    | none => simp [ps2FinalName, hs]
    | some tiles =>
      rcases h with h | h
      · rw [hs] at h
        exact absurd h (by simp)
      · simp [ps2FinalName, hs, h]
  · intro tiles mb hs hmap
    simp [ps2FinalName, hs, hmap]

theorem c1_flat_tree_single_entry_witness :
    (processFile ⟨false, false⟩ [] ⟨[], [], 0, 0⟩ ⟨"x.png", [], some []⟩).ps2
      = [] ++ [(ps2FinalName ⟨false, false⟩ [] ⟨[], [], 0, 0⟩ ⟨"x.png", [], some []⟩,
          apply_half_opacity false [])] :=
  (c1_flat_tree_single_entry ⟨false, false⟩ [] ⟨[], [], 0, 0⟩ ⟨"x.png", [], some []⟩
    (by decide)).1

/-- C1 counterexample: with sources `a.png` and `b.png` in one directory and
the mapping entry b -> a, the flat entry for `b.png` ends up named
`a_1.png`, which is neither the original basename `b.png` nor the mapped
basename with preserved extension `a.png`. -/
theorem c1_flat_name_counterexample :
    (runDir ⟨false, false⟩ [("b", "a")] ⟨[], [], 0, 0⟩
        [⟨"a.png", [], some []⟩, ⟨"b.png", [], some []⟩]).ps2.map Prod.fst
      = ["a.png", "a_1.png"]
    ∧ ("a_1.png" : String) ≠ "b.png" ∧ ("a_1.png" : String) ≠ "a" ++ ".png" := by
  decide

/-- C4: with the opacity switch off the flat copy is the byte-identical
image; with it on, every pixel keeps its R, G, B channels and gets alpha
`int(a * 0.5) = a / 2`; and the image placed in the flat tree is exactly
`apply_half_opacity` of the source. -/
theorem c4_opacity_contract (img : Image) (cfg : RunConfig) (m : List (String × String))
    (st : DirState) (f : InputFile) :
    apply_half_opacity false img = img
    ∧ (apply_half_opacity true img).length = img.length
    ∧ (∀ i : Nat, (apply_half_opacity true img)[i]? = (img[i]?).map halfAlpha)
    ∧ (∀ p : Pixel, (halfAlpha p).r = p.r ∧ (halfAlpha p).g = p.g
        ∧ (halfAlpha p).b = p.b ∧ (halfAlpha p).a = p.a / 2)
    ∧ (endsPng f.name = true →
        (processFile cfg m st f).ps2
          = st.ps2 ++ [(ps2FinalName cfg m st f,
              apply_half_opacity cfg.apply_opacity f.img)]) := by
  refine ⟨rfl, by simp [apply_half_opacity], ?_, ?_,
    fun h => processFile_ps2 cfg m st f h⟩
  · intro i
    simp only [apply_half_opacity, if_true]
    exact List.getElem?_map halfAlpha img i
  · intro p
    exact ⟨rfl, rfl, rfl, rfl⟩

theorem c4_opacity_contract_witness :
    apply_half_opacity false [⟨1, 2, 3, 7⟩] = [⟨1, 2, 3, 7⟩]
    ∧ (apply_half_opacity true [⟨1, 2, 3, 7⟩])[0]?
        = (([⟨1, 2, 3, 7⟩] : Image)[0]?).map halfAlpha :=
  ⟨(c4_opacity_contract [⟨1, 2, 3, 7⟩] ⟨false, false⟩ [] ⟨[], [], 0, 0⟩
      ⟨"x.png", [], none⟩).1,
    (c4_opacity_contract [⟨1, 2, 3, 7⟩] ⟨false, false⟩ [] ⟨[], [], 0, 0⟩
      ⟨"x.png", [], none⟩).2.2.1 0⟩

/-- C6 (amended): the run summary's processed count includes exactly the png
files whose splitter invocation succeeded, and the skipped count exactly the
non-png files; a png whose splitter failed is counted in neither. -/
theorem c6_summary_counts (cfg : RunConfig) (m : List (String × String))
    (files : List InputFile) (st : DirState) :
    (runDir cfg m st files).processed
        = st.processed + files.countP (fun f => endsPng f.name && f.split.isSome)
    ∧ (runDir cfg m st files).skipped
        = st.skipped + files.countP (fun f => !endsPng f.name) :=
  runDir_counts cfg m files st

/-- C6 counterexample: a single png whose splitter fails is reported in
neither count — the summary says 0 processed and 0 skipped although the file
was encountered (its flat copy exists), so it is not accounted for. -/
theorem c6_counts_counterexample :
    (runDir ⟨false, false⟩ [] ⟨[], [], 0, 0⟩ [⟨"broken.png", [], none⟩]).processed = 0
    ∧ (runDir ⟨false, false⟩ [] ⟨[], [], 0, 0⟩ [⟨"broken.png", [], none⟩]).skipped = 0
    ∧ (runDir ⟨false, false⟩ [] ⟨[], [], 0, 0⟩
        [⟨"broken.png", [], none⟩]).ps2.map Prod.fst = ["broken.png"]
    ∧ (runDir ⟨false, false⟩ [] ⟨[], [], 0, 0⟩ [⟨"broken.png", [], none⟩]).wii = [] := by
  decide

/-- C7 (amended): the tiles discovered by `gather_pngs` come in the walk
enumeration order of the scratch output directory (files of a directory in
listing order, then subdirectories depth-first), i.e. the enumeration is the
walk restricted to png names — not a lexicographically sorted sequence. -/
theorem c7_gather_walk_order (t : FTree) (root : String) :
    gather_pngs root t
      = ((walkEntries root t).filter (fun e => endsPng e.2)).map
          (fun e => joinPath e.1 e.2) :=
  gather_eq_walk t root

/-- C7 counterexample: a scratch directory whose listing enumerates
`b.png` before `a.png` is gathered in that order, so the discovered paths
are not in lexicographic order (the lexicographically smaller path comes
second). -/
theorem c7_gather_not_sorted_counterexample :
    gather_pngs "r" (FTree.node ["b.png", "a.png"] []) = ["r/b.png", "r/a.png"]
    ∧ ("r/a.png" : String).data < ("r/b.png" : String).data
    ∧ ¬ List.Sorted (fun x y : String => x.data ≤ y.data)
        (gather_pngs "r" (FTree.node ["b.png", "a.png"] [])) := by
  have h : gather_pngs "r" (FTree.node ["b.png", "a.png"] []) = ["r/b.png", "r/a.png"] := by
    simp only [gather_pngs_node, List.map_nil, List.flatten_nil]
    decide
  refine ⟨h, by decide, ?_⟩
  rw [h]
  decide

/-- C8: `read_mappings` returns the empty mapping when the file is absent;
every stored entry has a nonempty stripped, lowercased key and a stripped,
extension-stripped value coming from some raw item; a later occurrence of
the same normalized key overwrites the earlier one (last wins, no error)
while other keys are unaffected; an entry whose normalized key is empty is
dropped. -/
theorem c8_read_mappings_contract :
    (∀ items : List (String × String), read_mappings false items = [])
    ∧ (∀ (items : List (String × String)) (e : String × String),
        e ∈ read_mappings true items →
          e.1 ≠ "" ∧ ∃ kv ∈ items,
            e.1 = lowerStr (pyStrip kv.1) ∧ e.2 = (pySplitext (pyStrip kv.2)).1)
    ∧ (∀ (items : List (String × String)) (kv : String × String),
        lowerStr (pyStrip kv.1) ≠ "" →
          dictFind (read_mappings true (items ++ [kv])) (lowerStr (pyStrip kv.1))
            = some ((pySplitext (pyStrip kv.2)).1))
    ∧ (∀ (items : List (String × String)) (kv : String × String) (k : String),
        k ≠ lowerStr (pyStrip kv.1) →
          dictFind (read_mappings true (items ++ [kv])) k
            = dictFind (read_mappings true items) k)
    ∧ (∀ (items : List (String × String)) (kv : String × String),
        lowerStr (pyStrip kv.1) = "" →
          read_mappings true (items ++ [kv]) = read_mappings true items) := by
  refine ⟨fun items => rfl, fun items e he => read_mappings_entries items e he,
    ?_, ?_, ?_⟩
  · intro items kv hk
    rw [read_mappings_snoc, if_pos hk]
    exact dictFind_dictInsert_self _ _ _
  · intro items kv k hk
    rw [read_mappings_snoc]
    by_cases h : lowerStr (pyStrip kv.1) ≠ ""
    · rw [if_pos h]
      exact dictFind_dictInsert_other _ _ _ _ hk
    · rw [if_neg h]
  · intro items kv hk
    rw [read_mappings_snoc, if_neg (by simp [hk])]

theorem c8_read_mappings_contract_witness :
    dictFind (read_mappings true ([(" A ", "x.png")] ++ [("a", "y.png")]))
        (lowerStr (pyStrip "a"))
      = some ((pySplitext (pyStrip "y.png")).1) :=
  c8_read_mappings_contract.2.2.1 [(" A ", "x.png")] ("a", "y.png") (by decide)

/-- C9: a walked file enters the pipeline iff its name ends in ".png"
case-insensitively — otherwise it only bumps the skipped counter and
produces nothing; and among the splitter's outputs exactly the
png-suffixed files (discovered in walk order) are moved into the Wii
directory, everything else being discarded with the scratch directory. -/
theorem c9_png_filter (cfg : RunConfig) (m : List (String × String)) (st : DirState)
    (f : InputFile) :
    (endsPng f.name = false →
        processFile cfg m st f = { st with skipped := st.skipped + 1 })
    ∧ (endsPng f.name = true →
        (processFile cfg m st f).ps2.length = st.ps2.length + 1)
    ∧ (∀ tiles, endsPng f.name = true → f.split = some tiles →
        (processFile cfg m st f).wii
            = placeTiles cfg m (lowerStr (pySplitext f.name).1)
                (tiles.filter (fun t => endsPng t.1)) st.wii
          ∧ (processFile cfg m st f).wii.length
            = st.wii.length + (tiles.filter (fun t => endsPng t.1)).length)
    ∧ (∀ (root : String) (t : FTree),
        gather_pngs root t
          = ((walkEntries root t).filter (fun e => endsPng e.2)).map
              (fun e => joinPath e.1 e.2)) := by
  refine ⟨fun h => processFile_nonpng cfg m st f h, ?_, ?_,
    fun root t => gather_eq_walk t root⟩
  · intro h
    rw [processFile_ps2 cfg m st f h]
    simp
  · intro tiles hpng hs
    have hwii : (processFile cfg m st f).wii
        = placeTiles cfg m (lowerStr (pySplitext f.name).1)
            (tiles.filter (fun t => endsPng t.1)) st.wii := by
      cases hmap : dictFind m (lowerStr (pySplitext f.name).1) with
      | none => rw [processFile_success_unmapped cfg m st f tiles hpng hs hmap]
      | some mb => rw [processFile_success_mapped cfg m st f tiles mb hpng hs hmap]
    exact ⟨hwii, by rw [hwii, placeTiles_length]⟩

theorem c9_png_filter_witness :
    processFile ⟨false, false⟩ [] ⟨[], [], 0, 0⟩ ⟨"readme.txt", [], none⟩
      = { (⟨[], [], 0, 0⟩ : DirState) with skipped := 0 + 1 } :=
  (c9_png_filter ⟨false, false⟩ [] ⟨[], [], 0, 0⟩ ⟨"readme.txt", [], none⟩).1
    (by decide)
